import Mathlib

/-!
Verification of the whispering-gophers secure channel (package main,
secure_conn.go plus the SecureReader/SecureWriter message layer) and the
drum .splice decoder (package drum).

Byte streams are modelled as lists of natural numbers; a raw connection
that is read from is modelled as a list of chunks, each chunk being the
bytes delivered by one successful Read call, with the end of the chunk
list denoting end of stream.
-/

/-- Errors surfaced by the secure channel code: io.EOF,
io.ErrUnexpectedEOF, ErrBadHandshake, and, from the message layer,
decryption failure and oversize rejection.  connReset stands in for an
arbitrary underlying transport error. -/
inductive Err where
  | eof
  | unexpectedEOF
  | badHandshake
  | decryptionError
  | messageTooLarge
  | connReset
deriving DecidableEq, Repr

/-- A raw readable stream: the successive chunks its Read calls deliver. -/
abbrev Chunks := List (List Nat)

/-- Message layer constants.  headerLen is the byte width of the length
header; the source fixes only its existence (the tests use the names
headerLen, MaxMsgLen, MsgOverhead), so we pick 8 bytes little endian. -/
def headerLen : Nat := 8

/-- Nonce length of nacl box seal: 24 bytes. -/
def nonceLen : Nat := 24

/-- Authentication tag length of nacl box seal: 16 bytes. -/
def tagLen : Nat := 16

/-- Modelled from the spec: maxMessageLength is a fixed configuration
constant whose concrete value is an implementation choice; we pick 1024. -/
def MaxMsgLen : Nat := 1024

/-- Per message framing overhead, as in the tests of the message layer. -/
def MsgOverhead : Nat := headerLen + nonceLen + tagLen

/-- Little endian byte encoding of a natural number on k bytes. -/
def natToBytes : Nat → Nat → List Nat
  | 0, _ => []
  | k + 1, n => n % 256 :: natToBytes k (n / 256)

/-- Little endian byte decoding. -/
def bytesToNat : List Nat → Nat
  | [] => 0
  | b :: bs => b + 256 * bytesToNat bs

/-- The frame length header: headerLen bytes little endian. -/
def encodeHeader (n : Nat) : List Nat := natToBytes headerLen n

/-- Decoding of the frame length header. -/
def decodeHeader (bs : List Nat) : Nat := bytesToNat bs

/-- One Go Read call against a chunked stream: delivers up to n bytes of
the first chunk, or io.EOF at end of stream. -/
def connRead (s : Chunks) (n : Nat) : Except Err (List Nat × Chunks) :=
  match s with
  | [] => Except.error Err.eof
  | c :: rest =>
    if n < c.length then Except.ok (c.take n, c.drop n :: rest)
    else Except.ok (c, rest)

/-- io.ReadFull: repeated Read calls until n bytes are collected.
io.EOF when no byte arrived, io.ErrUnexpectedEOF after a partial read. -/
def readFullAux : Chunks → Nat → List Nat → Except Err (List Nat × Chunks)
  | s, 0, acc => Except.ok (acc, s)
  | [], _ + 1, acc =>
    Except.error (if acc = [] then Err.eof else Err.unexpectedEOF)
  | c :: s, n + 1, acc =>
    if c.length ≤ n + 1 then readFullAux s (n + 1 - c.length) (acc ++ c)
    else Except.ok (acc ++ c.take (n + 1), c.drop (n + 1) :: s)

/-- io.ReadFull over a chunked stream. -/
def readFull (s : Chunks) (n : Nat) : Except Err (List Nat × Chunks) :=
  readFullAux s n []

/-- Sum of a byte list, helper for the keystream. -/
def sumBytes (l : List Nat) : Nat := l.foldr (· + ·) 0

/-- Modelled from the spec: the box stream cipher keystream derived from
the shared key and the message nonce.  The secure channel treats seal as
an abstract authenticated encryption; any keystream works for the
properties proved here. -/
def keystream (key nonce : List Nat) (i : Nat) : Nat :=
  (sumBytes key + sumBytes nonce + i) % 256

/-- Modelled from the spec: byte wise encryption of the plaintext under
the keystream, beginning at stream position i. -/
def encFrom (key nonce : List Nat) : Nat → List Nat → List Nat
  | _, [] => []
  | i, b :: bs => (b + keystream key nonce i) % 256 :: encFrom key nonce (i + 1) bs

/-- Modelled from the spec: byte wise decryption, inverse of encFrom. -/
def decFrom (key nonce : List Nat) : Nat → List Nat → List Nat
  | _, [] => []
  | i, c :: cs =>
    (c + 256 - keystream key nonce i) % 256 :: decFrom key nonce (i + 1) cs

/-- Exclusive-or fold of a byte list. -/
def xorFold (l : List Nat) : Nat := l.foldr Nat.xor 0

/-- Modelled from the spec: the 16 byte authentication tag computed over
the encrypted bytes under the key and nonce (encrypt then authenticate,
as nacl box does).  The fold detects every single bit change. -/
def tagOf (key nonce encB : List Nat) : List Nat :=
  xorFold (key ++ nonce ++ encB) :: List.replicate (tagLen - 1) 0

/-- Modelled from the spec: SecureWriter.Write.  The implementation file
of the message layer (NewSecureWriter and friends) is not under src/,
only its tests and callers are; this follows spec section 4.3.  Returns
the write result and the bytes placed on the wire (empty on failure and
on the empty write).  The fresh random nonce is passed explicitly, as
the spec design notes direct for randomness capabilities. -/
def secureWrite (key nonce p : List Nat) : Except Err Nat × List Nat :=
  if MaxMsgLen < p.length then (Except.error Err.messageTooLarge, [])
  else if p.length = 0 then (Except.ok 0, [])
  else
    let encB := encFrom key nonce 0 p
    let ct := encB ++ tagOf key nonce encB
    (Except.ok p.length, encodeHeader (nonceLen + ct.length) ++ (nonce ++ ct))

/-- Modelled from the spec: the open step of SecureReader.Read, spec
section 4.4 steps 3 to 4: split off the tag, verify it, and fail closed
with the decryption error when verification fails. -/
def openMsg (key nonce ct : List Nat) : Except Err (List Nat) :=
  if ct.length < tagLen then Except.error Err.decryptionError
  else if ct.drop (ct.length - tagLen) = tagOf key nonce (ct.take (ct.length - tagLen))
  then Except.ok (decFrom key nonce 0 (ct.take (ct.length - tagLen)))
  else Except.error Err.decryptionError

/-- Modelled from the spec: SecureReader.Read, spec section 4.4.  Reads
the header in full (clean end of stream at the header start is ordinary
end of stream; a truncated header is the unexpected end error), then
exactly the announced nonce and ciphertext bytes (any shortfall is the
unexpected end error), then opens the message. -/
def secureRead (key : List Nat) (s : Chunks) : Except Err (List Nat × Chunks) :=
  match readFullAux s headerLen [] with
  | Except.error Err.eof => Except.error Err.eof
  | Except.error _ => Except.error Err.unexpectedEOF
  | Except.ok (hdr, s1) =>
    match readFullAux s1 (decodeHeader hdr) [] with
    | Except.error _ => Except.error Err.unexpectedEOF
    | Except.ok (body, s2) =>
      match openMsg key (body.take nonceLen) (body.drop nonceLen) with
      | Except.error e => Except.error e
      | Except.ok p => Except.ok (p, s2)

/-- Replace byte i of a byte list by its exclusive-or with the mask m;
with m a power of two below 256 this is a single bit flip on the wire. -/
def flipByte (l : List Nat) (i m : Nat) : List Nat :=
  l.set i (Nat.xor (l.getD i 0) m)

/-- The protocol identification token of secure_conn.go:
the ASCII bytes of the string whispering gophers 1. -/
def protocolHandshake : List Nat :=
  [119, 104, 105, 115, 112, 101, 114, 105, 110, 103, 32,
   103, 111, 112, 104, 101, 114, 115, 32, 49]

/-- The fixed rejection token of secure_conn.go:
the ASCII bytes of the string you shall not pass!. -/
def badHandshakeResponse : List Nat :=
  [121, 111, 117, 32, 115, 104, 97, 108, 108, 32, 110,
   111, 116, 32, 112, 97, 115, 115, 33]

/-- serverHandshake of secure_conn.go.  The generated key pair is passed
in (box.GenerateKey drawn from the randomness capability).  The input
stream carries what the client sends; the second component is what the
server writes to the connection during the handshake.  Note the token is
obtained by one single Read call into a zero filled buffer of the token
length, exactly as the source does, and a Read error that is end of
stream is mapped to io.ErrUnexpectedEOF; the client key is then read
with io.ReadFull via receiveKey, which maps both end of stream errors to
io.ErrUnexpectedEOF. -/
def serverHandshake (serverPub serverPriv : List Nat) (s : Chunks) :
    Except Err (List Nat × List Nat) × List Nat :=
  match connRead s protocolHandshake.length with
  | Except.error _ => (Except.error Err.unexpectedEOF, [])
  | Except.ok (got, s1) =>
    if got ++ List.replicate (protocolHandshake.length - got.length) 0
        = protocolHandshake then
      match readFullAux s1 32 [] with
      | Except.error _ => (Except.error Err.unexpectedEOF, serverPub)
      | Except.ok (clientPub, _) =>
        (Except.ok (serverPriv, clientPub), serverPub)
    else (Except.error Err.badHandshake, [])

/-- The wire output of the handshake part of serve in secure_conn.go: on
any handshake error the server writes the fixed rejection token and
closes; on success only the handshake output itself was written. -/
def serveHandshakeOutput (serverPub serverPriv : List Nat) (s : Chunks) : List Nat :=
  match serverHandshake serverPub serverPriv s with
  | (Except.error _, out) => out ++ badHandshakeResponse
  | (Except.ok _, out) => out

/-- The raw transport as Dial sees it: the chunks the server sends back,
plus an optional write fault; when the fault is set, the first write the
client attempts fails with that transport error (a reset connection). -/
structure ClientConn where
  input : Chunks
  writeErr : Option Err

/-- clientHandshake of secure_conn.go: write the token in full, receive
the 32 byte server key with receiveKey (both end of stream errors become
io.ErrUnexpectedEOF), write the own public key in full.  The generated
client key pair is passed in. -/
def clientHandshake (clientPub clientPriv : List Nat) (c : ClientConn) :
    Except Err (List Nat × List Nat) :=
  match c.writeErr with
  | some e => Except.error e
  | none =>
    match readFullAux c.input 32 [] with
    | Except.error _ => Except.error Err.unexpectedEOF
    | Except.ok (serverPub, _) => Except.ok (clientPriv, serverPub)

/-- The handshake error handling of Dial in secure_conn.go: any error
from clientHandshake makes Dial close the connection and return
ErrBadHandshake. -/
def Dial (clientPub clientPriv : List Nat) (c : ClientConn) :
    Except Err (List Nat × List Nat) :=
  match clientHandshake clientPub clientPriv c with
  | Except.error _ => Except.error Err.badHandshake
  | Except.ok v => Except.ok v

/-- One iteration of the echo loop of serve in secure_conn.go: read one
message into a MaxMsgLen buffer (the reader copies at most the buffer
length), then write those n bytes back.  none when the read fails and
the loop breaks; otherwise the write result, the wire bytes of the echo,
and the remaining input stream. -/
def echoIter (key nonce : List Nat) (s : Chunks) :
    Option ((Except Err Nat × List Nat) × Chunks) :=
  match secureRead key s with
  | Except.error _ => none
  | Except.ok (p, s1) => some (secureWrite key nonce (p.take MaxMsgLen), s1)

/-- A single track of the drum pattern (package drum): a 32 bit id, a
name whose byte length is announced by one byte, and 16 step bytes. -/
structure Track where
  id : Nat
  name : List Nat
  data : List Nat
deriving DecidableEq, Repr

/-- binary.Read of n little endian bytes from an in-memory reader: fails
(with an end of stream error) when fewer than n bytes remain. -/
def binRead (s : List Nat) (n : Nat) : Except Err (List Nat × List Nat) :=
  if s.length < n then Except.error Err.unexpectedEOF
  else Except.ok (s.take n, s.drop n)

/-- The loop of readTracks in the drum decoder: read the 5 byte track
header (32 bit id, 1 byte name length), the name, and the 16 data bytes
through the sticky error trackReader; a failure at any of the three
reads discards the partially decoded track and stops the loop. -/
def readTracksLoop (s : List Nat) : List Track :=
  if _h5 : s.length < 5 then []
  else if _hn : (s.drop 5).length < s.getD 4 0 then []
  else if _hd : ((s.drop 5).drop (s.getD 4 0)).length < 16 then []
  else
    { id := bytesToNat (s.take 4), name := (s.drop 5).take (s.getD 4 0),
      data := ((s.drop 5).drop (s.getD 4 0)).take 16 }
      :: readTracksLoop (((s.drop 5).drop (s.getD 4 0)).drop 16)
termination_by s.length
decreasing_by
  simp only [List.length_drop]
  omega

/-- readTracks of the drum decoder variant at src/unnamed/part_001: the
decoded tracks together with the returned error, which the source fixes
to nil on every path (return tracks, nil). -/
def readTracks (s : List Nat) : List Track × Option Err :=
  (readTracksLoop s, none)

/-- The byte encoding of one track in the .splice track region. -/
def encodeTrack (t : Track) : List Nat :=
  natToBytes 4 t.id ++ [t.name.length] ++ t.name ++ t.data

/-- The byte encoding of a track list. -/
def encodeTracks : List Track → List Nat
  | [] => []
  | t :: ts => encodeTrack t ++ encodeTracks ts

/-- A byte region on which the first track read of readTracks fails at
one of its three sticky reads (header, name, data). -/
def trackStepFails (s : List Nat) : Prop :=
  s.length < 5 ∨ s.length - 5 < s.getD 4 0 ∨ s.length - 5 - s.getD 4 0 < 16

instance (s : List Nat) : Decidable (trackStepFails s) := by
  unfold trackStepFails
  infer_instance

/-! ## Helper lemmas -/

theorem natToBytes_length (k n : Nat) : (natToBytes k n).length = k := by
  induction k generalizing n with
  | zero => rfl
  | succ k ih => simp [natToBytes, ih]

theorem bytesToNat_natToBytes (k n : Nat) (h : n < 256 ^ k) :
    bytesToNat (natToBytes k n) = n := by
  induction k generalizing n with
  | zero =>
    simp only [natToBytes, bytesToNat]
    simp only [pow_zero] at h
    omega
  | succ k ih =>
    have hdiv : n / 256 < 256 ^ k := by
      rw [Nat.div_lt_iff_lt_mul (by norm_num)]
      calc n < 256 ^ (k + 1) := h
        _ = 256 ^ k * 256 := by ring
    simp only [natToBytes, bytesToNat, ih _ hdiv]
    omega

theorem getD_append_ge (a b : List Nat) (i : Nat) (h : a.length ≤ i) :
    (a ++ b).getD i 0 = b.getD (i - a.length) 0 :=
  List.getD_append_right a b 0 i h

theorem getD_append_lt (a b : List Nat) (i : Nat) (h : i < a.length) :
    (a ++ b).getD i 0 = a.getD i 0 :=
  List.getD_append a b 0 i h

theorem set_append_ge (a b : List Nat) (i v : Nat) (h : a.length ≤ i) :
    (a ++ b).set i v = a ++ b.set (i - a.length) v := by
  rw [List.set_append, if_neg (by omega)]

theorem set_append_lt (a b : List Nat) (i v : Nat) (h : i < a.length) :
    (a ++ b).set i v = a.set i v ++ b := by
  rw [List.set_append, if_pos h]

theorem getD_set_self (l : List Nat) (i v : Nat) (h : i < l.length) :
    (l.set i v).getD i 0 = v := by
  induction l generalizing i with
  | nil => simp at h
  | cons x xs ih =>
    cases i with
    | zero => rfl
    | succ j =>
      simp only [List.set, List.getD_cons_succ]
      exact ih j (by simpa using h)

theorem natXor_assoc (a b c : Nat) :
    Nat.xor (Nat.xor a b) c = Nat.xor a (Nat.xor b c) := Nat.xor_assoc a b c

theorem natXor_comm (a b : Nat) : Nat.xor a b = Nat.xor b a := Nat.xor_comm a b

theorem natXor_self (a : Nat) : Nat.xor a a = 0 := Nat.xor_self a

theorem natXor_zero (a : Nat) : Nat.xor a 0 = a := Nat.xor_zero a

theorem natZero_xor (a : Nat) : Nat.xor 0 a = a := Nat.zero_xor a

theorem xorFold_cons (x : Nat) (l : List Nat) :
    xorFold (x :: l) = Nat.xor x (xorFold l) := rfl

theorem xorFold_append (a b : List Nat) :
    xorFold (a ++ b) = Nat.xor (xorFold a) (xorFold b) := by
  induction a with
  | nil => rw [List.nil_append, show xorFold [] = 0 from rfl, natZero_xor]
  | cons x xs ih =>
    rw [List.cons_append, xorFold_cons, xorFold_cons, ih, natXor_assoc]

theorem xorFold_flip (l : List Nat) (i m : Nat) (h : i < l.length) :
    xorFold (l.set i (Nat.xor (l.getD i 0) m)) = Nat.xor (xorFold l) m := by
  induction l generalizing i with
  | nil => simp at h
  | cons x xs ih =>
    cases i with
    | zero =>
      show xorFold (Nat.xor x m :: xs) = Nat.xor (xorFold (x :: xs)) m
      rw [xorFold_cons, xorFold_cons, natXor_assoc, natXor_assoc,
        natXor_comm m (xorFold xs)]
    | succ j =>
      show xorFold (x :: xs.set j (Nat.xor (xs.getD j 0) m))
          = Nat.xor (xorFold (x :: xs)) m
      rw [xorFold_cons, xorFold_cons, ih j (by simpa using h), natXor_assoc]

theorem natXor_left_cancel {a b c : Nat} (h : Nat.xor a b = Nat.xor a c) :
    b = c := by
  have h2 := congrArg (Nat.xor a) h
  rwa [← natXor_assoc, ← natXor_assoc, natXor_self, natZero_xor,
    natZero_xor] at h2

theorem flipByte_ne (l : List Nat) (i m : Nat) (h : i < l.length) (hm : m ≠ 0) :
    flipByte l i m ≠ l := by
  intro he
  have h1 : (flipByte l i m).getD i 0 = Nat.xor (l.getD i 0) m :=
    getD_set_self l i _ h
  rw [he] at h1
  have h2 : Nat.xor (l.getD i 0) 0 = Nat.xor (l.getD i 0) m := by
    rw [natXor_zero]; exact h1
  exact hm (natXor_left_cancel h2).symm

theorem flipByte_length (l : List Nat) (i m : Nat) :
    (flipByte l i m).length = l.length := List.length_set l i _

theorem keystream_lt (key nonce : List Nat) (i : Nat) :
    keystream key nonce i < 256 := by
  unfold keystream; omega

theorem encFrom_length (key nonce : List Nat) (i : Nat) (p : List Nat) :
    (encFrom key nonce i p).length = p.length := by
  induction p generalizing i with
  | nil => rfl
  | cons b bs ih => simp [encFrom, ih]

theorem decFrom_encFrom (key nonce : List Nat) (i : Nat) (p : List Nat)
    (hb : ∀ x ∈ p, x < 256) :
    decFrom key nonce i (encFrom key nonce i p) = p := by
  induction p generalizing i with
  | nil => rfl
  | cons b bs ih =>
    have hblt : b < 256 := hb b (by simp)
    have hks : keystream key nonce i < 256 := keystream_lt key nonce i
    simp only [encFrom, decFrom]
    rw [ih (i + 1) (fun x hx => hb x (by simp [hx]))]
    congr 1
    omega

theorem tagOf_length (key nonce encB : List Nat) :
    (tagOf key nonce encB).length = tagLen := by
  simp [tagOf, tagLen]

theorem readFullAux_nil_pos (n : Nat) (acc : List Nat) (h : 0 < n) :
    readFullAux [] n acc
      = Except.error (if acc = [] then Err.eof else Err.unexpectedEOF) := by
  cases n with
  | zero => omega
  | succ k => rfl

theorem readFullAux_chunk_lt (c : List Nat) (s : Chunks) (n : Nat)
    (h0 : 0 < n) (h : n < c.length) :
    readFullAux (c :: s) n [] = Except.ok (c.take n, c.drop n :: s) := by
  cases n with
  | zero => omega
  | succ k =>
    simp only [readFullAux]
    rw [if_neg (by omega)]
    simp

theorem readFullAux_chunk_eq (c : List Nat) (n : Nat) (h0 : 0 < n)
    (h : c.length = n) :
    readFullAux [c] n [] = Except.ok (c, []) := by
  cases n with
  | zero => omega
  | succ k =>
    simp only [readFullAux]
    rw [if_pos (by omega), List.nil_append,
      show k + 1 - c.length = 0 by omega]
    rfl

theorem readFullAux_chunk_short (c : List Nat) (n : Nat) (h : c.length < n) :
    readFullAux [c] n []
      = Except.error (if c = [] then Err.eof else Err.unexpectedEOF) := by
  cases n with
  | zero => omega
  | succ k =>
    simp only [readFullAux]
    rw [if_pos (by omega), List.nil_append]
    exact readFullAux_nil_pos _ _ (by omega)

theorem readFullAux_empty_chunk (s : Chunks) (n : Nat) (acc : List Nat)
    (h : 0 < n) :
    readFullAux ([] :: s) n acc = readFullAux s n acc := by
  cases n with
  | zero => omega
  | succ k =>
    simp only [readFullAux]
    rw [if_pos (by simp)]
    simp

/-- Parsing one whole frame that sits alone on the stream: the header is
consumed, the announced body is consumed, and the message is opened. -/
theorem secureRead_frame (key b : List Nat) (h0 : 0 < b.length)
    (hlt : b.length < 256 ^ headerLen) :
    secureRead key [encodeHeader b.length ++ b] =
      match openMsg key (b.take nonceLen) (b.drop nonceLen) with
      | Except.error e => Except.error e
      | Except.ok p => Except.ok (p, []) := by
  have hlen : (encodeHeader b.length).length = headerLen :=
    natToBytes_length _ _
  have happlen : (encodeHeader b.length ++ b).length = headerLen + b.length := by
    simp [hlen]
  have hread1 : readFullAux [encodeHeader b.length ++ b] headerLen []
      = Except.ok (encodeHeader b.length, [b]) := by
    rw [readFullAux_chunk_lt _ _ _ (by norm_num [headerLen]) (by omega)]
    rw [List.take_left' hlen, List.drop_left' hlen]
  have hdec : decodeHeader (encodeHeader b.length) = b.length := by
    unfold decodeHeader encodeHeader
    exact bytesToNat_natToBytes _ _ hlt
  have hread2 : readFullAux [b] b.length [] = Except.ok (b, []) :=
    readFullAux_chunk_eq b _ h0 rfl
  unfold secureRead
  rw [hread1]
  simp only [hdec, hread2]

/-- Opening an untampered sealed message recovers the plaintext. -/
theorem openMsg_seal (key nonce p : List Nat) (hb : ∀ x ∈ p, x < 256) :
    openMsg key nonce
        (encFrom key nonce 0 p ++ tagOf key nonce (encFrom key nonce 0 p))
      = Except.ok p := by
  have hel : (encFrom key nonce 0 p).length = p.length :=
    encFrom_length key nonce 0 p
  have htl : (tagOf key nonce (encFrom key nonce 0 p)).length = tagLen :=
    tagOf_length key nonce _
  have hct : (encFrom key nonce 0 p
      ++ tagOf key nonce (encFrom key nonce 0 p)).length
      = p.length + tagLen := by
    simp [hel, htl]
  unfold openMsg
  rw [if_neg (by omega)]
  rw [show (encFrom key nonce 0 p
      ++ tagOf key nonce (encFrom key nonce 0 p)).length - tagLen
      = (encFrom key nonce 0 p).length by omega]
  rw [List.take_left' rfl, List.drop_left' rfl, if_pos rfl,
    decFrom_encFrom key nonce 0 p hb]

/-- The wire frame produced by a successful write. -/
theorem secureWrite_frame (key nonce p : List Nat) (h0 : 0 < p.length)
    (hm : p.length ≤ MaxMsgLen) :
    secureWrite key nonce p
      = (Except.ok p.length,
         encodeHeader (nonceLen
             + (encFrom key nonce 0 p
                 ++ tagOf key nonce (encFrom key nonce 0 p)).length)
           ++ (nonce
             ++ (encFrom key nonce 0 p
                 ++ tagOf key nonce (encFrom key nonce 0 p)))) := by
  unfold secureWrite
  rw [if_neg (by omega), if_neg (by omega)]

/-- Round trip of one message through the modelled writer and reader. -/
theorem secureRead_secureWrite (key nonce p : List Nat)
    (hn : nonce.length = nonceLen) (h0 : 0 < p.length)
    (hm : p.length ≤ MaxMsgLen) (hb : ∀ x ∈ p, x < 256) :
    secureRead key [(secureWrite key nonce p).2] = Except.ok (p, []) := by
  rw [secureWrite_frame key nonce p h0 hm]
  have hbl : (nonce ++ (encFrom key nonce 0 p
      ++ tagOf key nonce (encFrom key nonce 0 p))).length
      = nonceLen + (encFrom key nonce 0 p
        ++ tagOf key nonce (encFrom key nonce 0 p)).length := by
    simp [hn]
  have hct : (encFrom key nonce 0 p
      ++ tagOf key nonce (encFrom key nonce 0 p)).length
      = p.length + tagLen := by
    simp [encFrom_length, tagOf_length]
  have h0b : 0 < (nonce ++ (encFrom key nonce 0 p
      ++ tagOf key nonce (encFrom key nonce 0 p))).length := by
    rw [hbl]; unfold nonceLen; omega
  have hltb : (nonce ++ (encFrom key nonce 0 p
      ++ tagOf key nonce (encFrom key nonce 0 p))).length
      < 256 ^ headerLen := by
    rw [hbl, hct]
    have : (256 : Nat) ^ headerLen = 18446744073709551616 := by
      norm_num [headerLen]
    unfold nonceLen tagLen MaxMsgLen at *
    omega
  rw [← hbl, secureRead_frame key _ h0b hltb,
    List.take_left' hn, List.drop_left' hn, openMsg_seal key nonce p hb]

/-- Opening a sealed message with any one byte of the ciphertext and tag
region changed by a nonzero exclusive-or mask fails the tag check. -/
theorem openMsg_flip (key nonce p : List Nat) (j m : Nat) (hm0 : m ≠ 0)
    (hj : j < p.length + tagLen) :
    openMsg key nonce
        (flipByte (encFrom key nonce 0 p
          ++ tagOf key nonce (encFrom key nonce 0 p)) j m)
      = Except.error Err.decryptionError := by
  have hel : (encFrom key nonce 0 p).length = p.length :=
    encFrom_length key nonce 0 p
  have htl : (tagOf key nonce (encFrom key nonce 0 p)).length = tagLen :=
    tagOf_length key nonce _
  have hctlen : (flipByte (encFrom key nonce 0 p
      ++ tagOf key nonce (encFrom key nonce 0 p)) j m).length
      = p.length + tagLen := by
    rw [flipByte_length]; simp [hel, htl]
  by_cases hcase : j < p.length
  · -- the flip lands inside the encrypted bytes
    have hsplit : flipByte (encFrom key nonce 0 p
        ++ tagOf key nonce (encFrom key nonce 0 p)) j m
        = flipByte (encFrom key nonce 0 p) j m
          ++ tagOf key nonce (encFrom key nonce 0 p) := by
      unfold flipByte
      rw [set_append_lt _ _ _ _ (by omega), getD_append_lt _ _ _ (by omega)]
    have hfliplen : (flipByte (encFrom key nonce 0 p) j m).length
        = p.length := by rw [flipByte_length, hel]
    unfold openMsg
    rw [if_neg (by omega), hsplit,
      show (flipByte (encFrom key nonce 0 p) j m
          ++ tagOf key nonce (encFrom key nonce 0 p)).length - tagLen
        = (flipByte (encFrom key nonce 0 p) j m).length by
          simp [hfliplen, htl],
      List.take_left' rfl, List.drop_left' rfl]
    rw [if_neg ?hne]
    case hne =>
      intro he
      have hhead : xorFold (key ++ nonce ++ encFrom key nonce 0 p)
          = xorFold (key ++ nonce ++ flipByte (encFrom key nonce 0 p) j m) := by
        have := congrArg (fun l => l.getD 0 0) he
        simpa [tagOf] using this
      simp only [xorFold_append] at hhead
      have h2 : xorFold (encFrom key nonce 0 p)
          = xorFold (flipByte (encFrom key nonce 0 p) j m) :=
        natXor_left_cancel hhead
      unfold flipByte at h2
      rw [xorFold_flip _ _ _ (by omega)] at h2
      have h3 : Nat.xor (xorFold (encFrom key nonce 0 p)) 0
          = Nat.xor (xorFold (encFrom key nonce 0 p)) m := by
        rw [natXor_zero]; exact h2
      exact hm0 (natXor_left_cancel h3).symm
  · -- the flip lands inside the tag
    have hsplit : flipByte (encFrom key nonce 0 p
        ++ tagOf key nonce (encFrom key nonce 0 p)) j m
        = encFrom key nonce 0 p
          ++ flipByte (tagOf key nonce (encFrom key nonce 0 p))
              (j - p.length) m := by
      unfold flipByte
      rw [set_append_ge _ _ _ _ (by omega), getD_append_ge _ _ _ (by omega),
        hel]
    have hfliplen : (flipByte (tagOf key nonce (encFrom key nonce 0 p))
        (j - p.length) m).length = tagLen := by rw [flipByte_length, htl]
    unfold openMsg
    rw [if_neg (by omega), hsplit,
      show (encFrom key nonce 0 p
          ++ flipByte (tagOf key nonce (encFrom key nonce 0 p))
              (j - p.length) m).length - tagLen
        = (encFrom key nonce 0 p).length by simp [hel, hfliplen],
      List.take_left' rfl, List.drop_left' rfl]
    rw [if_neg ?hne2]
    case hne2 =>
      exact flipByte_ne _ _ _ (by omega) hm0

/-- Feeding the reader a nonempty proper front part of a frame followed
by end of stream yields the unexpected end of stream error, wherever the
frame is cut. -/
theorem secureRead_truncated_frame (key b : List Nat) (cut : Nat)
    (h0 : 0 < b.length) (hlt : b.length < 256 ^ headerLen) (hc0 : 0 < cut)
    (hcut : cut < headerLen + b.length) :
    secureRead key [(encodeHeader b.length ++ b).take cut]
      = Except.error Err.unexpectedEOF := by
  have hlen : (encodeHeader b.length).length = headerLen :=
    natToBytes_length _ _
  have hwl : (encodeHeader b.length ++ b).length = headerLen + b.length := by
    simp [hlen]
  have hchl : ((encodeHeader b.length ++ b).take cut).length = cut := by
    rw [List.length_take]; omega
  have hdec : decodeHeader (encodeHeader b.length) = b.length := by
    unfold decodeHeader encodeHeader
    exact bytesToNat_natToBytes _ _ hlt
  rcases Nat.lt_trichotomy cut headerLen with h1 | h2 | h3
  · -- cut inside the header
    have hne : (encodeHeader b.length ++ b).take cut ≠ [] := by
      intro hh
      rw [hh] at hchl
      simp at hchl
      omega
    have hshort : readFullAux [(encodeHeader b.length ++ b).take cut]
        headerLen []
        = Except.error (if (encodeHeader b.length ++ b).take cut = []
            then Err.eof else Err.unexpectedEOF) :=
      readFullAux_chunk_short _ _ (by omega)
    rw [if_neg hne] at hshort
    unfold secureRead
    rw [hshort]
  · -- cut exactly at the end of the header
    subst h2
    have htk : (encodeHeader b.length ++ b).take headerLen
        = encodeHeader b.length := List.take_left' hlen
    have hread : readFullAux [encodeHeader b.length] headerLen []
        = Except.ok (encodeHeader b.length, []) :=
      readFullAux_chunk_eq _ _ (by norm_num [headerLen]) hlen
    have hbody : readFullAux [] b.length []
        = Except.error (if ([] : List Nat) = []
            then Err.eof else Err.unexpectedEOF) :=
      readFullAux_nil_pos _ _ h0
    rw [if_pos rfl] at hbody
    unfold secureRead
    rw [htk, hread]
    simp only [hdec, hbody]
  · -- cut inside the body
    have hfirst : readFullAux [(encodeHeader b.length ++ b).take cut]
        headerLen []
        = Except.ok (((encodeHeader b.length ++ b).take cut).take headerLen,
            [((encodeHeader b.length ++ b).take cut).drop headerLen]) :=
      readFullAux_chunk_lt _ _ _ (by norm_num [headerLen]) (by omega)
    have htake8 : ((encodeHeader b.length ++ b).take cut).take headerLen
        = encodeHeader b.length := by
      rw [List.take_take, show headerLen ⊓ cut = headerLen by omega,
        List.take_left' hlen]
    have hdrop8 : ((encodeHeader b.length ++ b).take cut).drop headerLen
        = b.take (cut - headerLen) := by
      rw [List.drop_take, List.drop_left' hlen]
    have hblen : (b.take (cut - headerLen)).length = cut - headerLen := by
      rw [List.length_take]; omega
    have hbody : readFullAux [b.take (cut - headerLen)] b.length []
        = Except.error (if b.take (cut - headerLen) = []
            then Err.eof else Err.unexpectedEOF) :=
      readFullAux_chunk_short _ _ (by omega)
    unfold secureRead
    rw [hfirst]
    simp only [htake8, hdrop8, hdec, hbody]

/-! ## Claim theorems -/

/-- C1: for every plaintext p with 0 < len p and len p at most
maxMessageLength, writing p through the secure writer and reading the
resulting frame back through the secure reader (same key, same stream)
succeeds, reports len p bytes written, and returns exactly the bytes of
p with no error. -/
theorem claim_roundtrip (key nonce p : List Nat) (hn : nonce.length = nonceLen)
    (h0 : 0 < p.length) (hm : p.length ≤ MaxMsgLen) (hb : ∀ x ∈ p, x < 256) :
    (secureWrite key nonce p).1 = Except.ok p.length ∧
    secureRead key [(secureWrite key nonce p).2] = Except.ok (p, []) := by
  refine ⟨?_, secureRead_secureWrite key nonce p hn h0 hm hb⟩
  rw [secureWrite_frame key nonce p h0 hm]

theorem claim_roundtrip_witness :
    (List.replicate 24 0 : List Nat).length = nonceLen ∧
    (0 < ([104, 105] : List Nat).length) ∧
    ([104, 105] : List Nat).length ≤ MaxMsgLen ∧
    (∀ x ∈ ([104, 105] : List Nat), x < 256) ∧
    (secureWrite [] (List.replicate 24 0) [104, 105]).1 = Except.ok 2 ∧
    secureRead [] [(secureWrite [] (List.replicate 24 0) [104, 105]).2]
      = Except.ok ([104, 105], []) := by
  have h := claim_roundtrip [] (List.replicate 24 0) [104, 105]
    (by decide) (by decide) (by decide) (by decide)
  exact ⟨by decide, by decide, by decide, by decide, h.1, h.2⟩

/-- C2: flipping any single bit inside the ciphertext and tag region of
a valid frame makes the read fail with the decryption error, which is a
different error from the unexpected end of stream framing error. -/
theorem claim_tamper (key nonce p : List Nat) (j k : Nat)
    (hn : nonce.length = nonceLen) (h0 : 0 < p.length)
    (hm : p.length ≤ MaxMsgLen) (hj : j < p.length + tagLen) (hk : k < 8) :
    secureRead key
        [flipByte ((secureWrite key nonce p).2)
          (headerLen + nonceLen + j) (2 ^ k)]
      = Except.error Err.decryptionError ∧
    Err.decryptionError ≠ Err.unexpectedEOF := by
  refine ⟨?_, by decide⟩
  have hm0 : (2 : Nat) ^ k ≠ 0 :=
    Nat.pos_iff_ne_zero.mp (Nat.pow_pos (by norm_num))
  have hw2 : (secureWrite key nonce p).2
      = encodeHeader (nonceLen + (encFrom key nonce 0 p
          ++ tagOf key nonce (encFrom key nonce 0 p)).length)
        ++ (nonce ++ (encFrom key nonce 0 p
          ++ tagOf key nonce (encFrom key nonce 0 p))) := by
    rw [secureWrite_frame key nonce p h0 hm]
  have hlen : (encodeHeader (nonceLen + (encFrom key nonce 0 p
      ++ tagOf key nonce (encFrom key nonce 0 p)).length)).length
      = headerLen := natToBytes_length _ _
  have hflip : flipByte ((secureWrite key nonce p).2)
        (headerLen + nonceLen + j) (2 ^ k)
      = encodeHeader (nonceLen + (encFrom key nonce 0 p
          ++ tagOf key nonce (encFrom key nonce 0 p)).length)
        ++ (nonce ++ flipByte (encFrom key nonce 0 p
          ++ tagOf key nonce (encFrom key nonce 0 p)) j (2 ^ k)) := by
    rw [hw2]
    unfold flipByte
    rw [set_append_ge _ _ _ _ (by rw [hlen]; omega),
      getD_append_ge _ _ _ (by rw [hlen]; omega), hlen,
      show headerLen + nonceLen + j - headerLen = nonceLen + j from by omega,
      set_append_ge _ _ _ _ (by rw [hn]; omega),
      getD_append_ge _ _ _ (by rw [hn]; omega), hn,
      show nonceLen + j - nonceLen = j from by omega]
  rw [hflip]
  have hb2 : (nonce ++ flipByte (encFrom key nonce 0 p
      ++ tagOf key nonce (encFrom key nonce 0 p)) j (2 ^ k)).length
      = nonceLen + (encFrom key nonce 0 p
          ++ tagOf key nonce (encFrom key nonce 0 p)).length := by
    simp [hn, flipByte_length]
  have hctlen : (encFrom key nonce 0 p
      ++ tagOf key nonce (encFrom key nonce 0 p)).length
      = p.length + tagLen := by
    simp [encFrom_length, tagOf_length]
  have h0b : 0 < (nonce ++ flipByte (encFrom key nonce 0 p
      ++ tagOf key nonce (encFrom key nonce 0 p)) j (2 ^ k)).length := by
    rw [hb2]; unfold nonceLen; omega
  have hltb : (nonce ++ flipByte (encFrom key nonce 0 p
      ++ tagOf key nonce (encFrom key nonce 0 p)) j (2 ^ k)).length
      < 256 ^ headerLen := by
    rw [hb2, hctlen]
    have hpow : (256 : Nat) ^ headerLen = 18446744073709551616 := by
      norm_num [headerLen]
    unfold nonceLen tagLen MaxMsgLen at *
    omega
  rw [← hb2, secureRead_frame key _ h0b hltb, List.take_left' hn,
    List.drop_left' hn, openMsg_flip key nonce p j (2 ^ k) hm0 hj]

theorem claim_tamper_witness :
    (List.replicate 24 0 : List Nat).length = nonceLen ∧
    (0 < ([5] : List Nat).length) ∧
    ([5] : List Nat).length ≤ MaxMsgLen ∧
    ((0 : Nat) < ([5] : List Nat).length + tagLen) ∧
    ((0 : Nat) < 8) ∧
    secureRead []
        [flipByte ((secureWrite [] (List.replicate 24 0) [5]).2)
          (headerLen + nonceLen + 0) (2 ^ 0)]
      = Except.error Err.decryptionError := by
  have h := claim_tamper [] (List.replicate 24 0) [5] 0 0
    (by decide) (by decide) (by decide) (by decide) (by decide)
  exact ⟨by decide, by decide, by decide, by decide, by decide, h.1⟩

/-- C3: a nonempty proper front part of a valid frame, cut anywhere
inside the header or inside the nonce and ciphertext body and followed
by end of stream, makes the read fail with the unexpected end of stream
error; a frame announcing more body bytes than arrive is never accepted
as a shorter message. -/
theorem claim_truncation (key nonce p : List Nat) (cut : Nat)
    (hn : nonce.length = nonceLen) (h0 : 0 < p.length)
    (hm : p.length ≤ MaxMsgLen) (hc0 : 0 < cut)
    (hcut : cut < ((secureWrite key nonce p).2).length) :
    secureRead key [((secureWrite key nonce p).2).take cut]
      = Except.error Err.unexpectedEOF := by
  have hw2 : (secureWrite key nonce p).2
      = encodeHeader (nonceLen + (encFrom key nonce 0 p
          ++ tagOf key nonce (encFrom key nonce 0 p)).length)
        ++ (nonce ++ (encFrom key nonce 0 p
          ++ tagOf key nonce (encFrom key nonce 0 p))) := by
    rw [secureWrite_frame key nonce p h0 hm]
  have hb2 : (nonce ++ (encFrom key nonce 0 p
      ++ tagOf key nonce (encFrom key nonce 0 p))).length
      = nonceLen + (encFrom key nonce 0 p
          ++ tagOf key nonce (encFrom key nonce 0 p)).length := by
    simp [hn]
  have hctlen : (encFrom key nonce 0 p
      ++ tagOf key nonce (encFrom key nonce 0 p)).length
      = p.length + tagLen := by
    simp [encFrom_length, tagOf_length]
  rw [hw2, ← hb2] at hcut ⊢
  have happ : (encodeHeader (nonce ++ (encFrom key nonce 0 p
      ++ tagOf key nonce (encFrom key nonce 0 p))).length
      ++ (nonce ++ (encFrom key nonce 0 p
          ++ tagOf key nonce (encFrom key nonce 0 p)))).length
      = headerLen + (nonce ++ (encFrom key nonce 0 p
          ++ tagOf key nonce (encFrom key nonce 0 p))).length := by
    simp [natToBytes_length, encodeHeader]
  rw [happ] at hcut
  refine secureRead_truncated_frame key _ cut ?_ ?_ hc0 hcut
  · rw [hb2]; unfold nonceLen; omega
  · rw [hb2, hctlen]
    have hpow : (256 : Nat) ^ headerLen = 18446744073709551616 := by
      norm_num [headerLen]
    unfold nonceLen tagLen MaxMsgLen at *
    omega

theorem claim_truncation_witness :
    (List.replicate 24 0 : List Nat).length = nonceLen ∧
    (0 < ([5] : List Nat).length) ∧
    ([5] : List Nat).length ≤ MaxMsgLen ∧
    ((0 : Nat) < 10) ∧
    (10 < ((secureWrite [] (List.replicate 24 0) [5]).2).length) ∧
    secureRead [] [((secureWrite [] (List.replicate 24 0) [5]).2).take 10]
      = Except.error Err.unexpectedEOF := by
  have h := claim_truncation [] (List.replicate 24 0) [5] 10
    (by decide) (by decide) (by decide) (by decide) (by decide)
  exact ⟨by decide, by decide, by decide, by decide, by decide, h⟩

/-- C4: a plaintext longer than maxMessageLength is rejected with the
message too large error before anything reaches the wire, and a
plaintext of exactly maxMessageLength bytes is written successfully,
reports that many bytes written, and round trips through the reader. -/
theorem claim_oversize (key nonce p : List Nat) (hn : nonce.length = nonceLen)
    (hb : ∀ x ∈ p, x < 256) :
    (MaxMsgLen < p.length →
      secureWrite key nonce p = (Except.error Err.messageTooLarge, [])) ∧
    (p.length = MaxMsgLen →
      (secureWrite key nonce p).1 = Except.ok MaxMsgLen ∧
      secureRead key [(secureWrite key nonce p).2] = Except.ok (p, [])) := by
  constructor
  · intro hgt
    unfold secureWrite
    rw [if_pos hgt]
  · intro heq
    have h0 : 0 < p.length := by rw [heq]; norm_num [MaxMsgLen]
    refine ⟨?_, secureRead_secureWrite key nonce p hn h0 (by omega) hb⟩
    rw [secureWrite_frame key nonce p h0 (by omega), heq]

theorem claim_oversize_witness :
    (List.replicate 24 0 : List Nat).length = nonceLen ∧
    (∀ x ∈ (List.replicate 1025 6 : List Nat), x < 256) ∧
    MaxMsgLen < (List.replicate 1025 6 : List Nat).length ∧
    secureWrite [] (List.replicate 24 0) (List.replicate 1025 6)
      = (Except.error Err.messageTooLarge, []) ∧
    (List.replicate 1024 7 : List Nat).length = MaxMsgLen ∧
    (secureWrite [] (List.replicate 24 0) (List.replicate 1024 7)).1
      = Except.ok MaxMsgLen := by
  have hb1 : ∀ x ∈ (List.replicate 1025 6 : List Nat), x < 256 := by
    intro x hx
    rw [List.eq_of_mem_replicate hx]
    norm_num
  have hb2 : ∀ x ∈ (List.replicate 1024 7 : List Nat), x < 256 := by
    intro x hx
    rw [List.eq_of_mem_replicate hx]
    norm_num
  have hgt : MaxMsgLen < (List.replicate 1025 6 : List Nat).length := by
    rw [List.length_replicate]
    norm_num [MaxMsgLen]
  have heq : (List.replicate 1024 7 : List Nat).length = MaxMsgLen := by
    rw [List.length_replicate]
    rfl
  have h1 := (claim_oversize [] (List.replicate 24 0) (List.replicate 1025 6)
    (by decide) hb1).1 hgt
  have h2 := ((claim_oversize [] (List.replicate 24 0) (List.replicate 1024 7)
    (by decide) hb2).2 heq).1
  exact ⟨by decide, hb1, hgt, h1, heq, h2⟩

/-- C8: a zero length write returns zero bytes written with no error and
places nothing on the wire: pushing its (empty) output ahead of any
stream leaves every later read unchanged, and a reader that sees only
the output of an empty write observes a clean end of stream. -/
theorem claim_empty_write (key nonce : List Nat) (s : Chunks) :
    secureWrite key nonce [] = (Except.ok 0, []) ∧
    secureRead key ((secureWrite key nonce []).2 :: s) = secureRead key s ∧
    secureRead key [(secureWrite key nonce []).2] = Except.error Err.eof := by
  refine ⟨rfl, ?_, rfl⟩
  show secureRead key ([] :: s) = secureRead key s
  unfold secureRead
  rw [readFullAux_empty_chunk s headerLen [] (by norm_num [headerLen])]

/-- C9: one iteration of the echo loop of serve writes back exactly the
bytes obtained by the preceding read, whose count is bounded by the
MaxMsgLen read buffer, so the echo write always succeeds with that count
and in particular never fails with the message too large error. -/
theorem claim_echo_write_fits (key nonce : List Nat) (s : Chunks)
    (p : List Nat) (s1 : Chunks)
    (h : secureRead key s = Except.ok (p, s1)) :
    echoIter key nonce s = some (secureWrite key nonce (p.take MaxMsgLen), s1) ∧
    (secureWrite key nonce (p.take MaxMsgLen)).1
      = Except.ok (p.take MaxMsgLen).length ∧
    (secureWrite key nonce (p.take MaxMsgLen)).1
      ≠ Except.error Err.messageTooLarge := by
  have hlen : (p.take MaxMsgLen).length ≤ MaxMsgLen := by
    rw [List.length_take]; omega
  have h1 : (secureWrite key nonce (p.take MaxMsgLen)).1
      = Except.ok (p.take MaxMsgLen).length := by
    unfold secureWrite
    by_cases h0 : (p.take MaxMsgLen).length = 0
    · rw [if_neg (by omega), if_pos h0, h0]
    · rw [if_neg (by omega), if_neg h0]
  refine ⟨?_, h1, ?_⟩
  · unfold echoIter
    rw [h]
  · rw [h1]
    intro hx
    exact Except.noConfusion hx

theorem claim_echo_write_fits_witness :
    secureRead [] [(secureWrite [] (List.replicate 24 0) [5]).2]
      = Except.ok ([5], []) ∧
    (secureWrite [] (List.replicate 24 0)
        (([5] : List Nat).take MaxMsgLen)).1
      = Except.ok (([5] : List Nat).take MaxMsgLen).length := by
  have hread : secureRead [] [(secureWrite [] (List.replicate 24 0) [5]).2]
      = Except.ok ([5], []) := rfl
  have h := claim_echo_write_fits [] (List.replicate 24 0)
    [(secureWrite [] (List.replicate 24 0) [5]).2] [5] [] hread
  exact ⟨hread, h.2.1⟩

/-- C5 counterexample: a conforming client whose stream ends after only
the first 10 bytes of the token makes serverHandshake fail with
ErrBadHandshake, not with io.ErrUnexpectedEOF as the claim states: the
single Read call returns the 10 bytes without error and the zero filled
remainder of the buffer makes the byte comparison fail. -/
theorem serverHandshake_chunked_token_cex :
    (serverHandshake (List.replicate 32 5) (List.replicate 32 7)
        [protocolHandshake.take 10]).1 = Except.error Err.badHandshake ∧
    (serverHandshake (List.replicate 32 5) (List.replicate 32 7)
        [protocolHandshake.take 10]).1
      ≠ Except.error Err.unexpectedEOF := by
  constructor
  · rfl
  · intro hx
    have hx2 : (Except.error Err.badHandshake
        : Except Err (List Nat × List Nat))
        = Except.error Err.unexpectedEOF := hx
    injection hx2 with h2
    exact absurd h2 (by decide)

/-- C5 amended: the server obtains the token with one single Read call
into a zero filled buffer of the token length; only when that read
reports end of stream before any byte arrives does the handshake fail
with io.ErrUnexpectedEOF, and whenever the bytes of that single read,
zero padded to the token length, differ from the token (including a
token truncated by end of stream or split across reads) the handshake
fails with ErrBadHandshake and nothing is written. -/
theorem serverHandshake_token_phase (pub priv : List Nat) (s : Chunks) :
    (connRead s protocolHandshake.length = Except.error Err.eof →
      (serverHandshake pub priv s).1 = Except.error Err.unexpectedEOF) ∧
    (∀ got s1, connRead s protocolHandshake.length = Except.ok (got, s1) →
      got ++ List.replicate (protocolHandshake.length - got.length) 0
        ≠ protocolHandshake →
      serverHandshake pub priv s = (Except.error Err.badHandshake, [])) := by
  constructor
  · intro h
    unfold serverHandshake
    rw [h]
  · intro got s1 h hne
    unfold serverHandshake
    rw [h]
    simp only []
    rw [if_neg hne]

theorem serverHandshake_token_phase_witness :
    (connRead [] protocolHandshake.length = Except.error Err.eof) ∧
    (serverHandshake [3] [4] []).1 = Except.error Err.unexpectedEOF ∧
    (connRead [[1]] protocolHandshake.length = Except.ok ([1], [])) ∧
    ([1] ++ List.replicate (protocolHandshake.length - 1) 0
      ≠ protocolHandshake) ∧
    serverHandshake [3] [4] [[1]] = (Except.error Err.badHandshake, []) := by
  refine ⟨rfl, (serverHandshake_token_phase [3] [4] []).1 rfl, rfl,
    by decide, ?_⟩
  exact (serverHandshake_token_phase [3] [4] [[1]]).2 [1] [] rfl (by decide)

/-- C6 counterexample: when the client side handshake fails with an
underlying transport error (a reset connection), Dial does not propagate
that transport error: it returns ErrBadHandshake instead. -/
theorem dial_transport_error_cex :
    clientHandshake [] [] ⟨[], some Err.connReset⟩
      = Except.error Err.connReset ∧
    Dial [] [] ⟨[], some Err.connReset⟩ = Except.error Err.badHandshake ∧
    Dial [] [] ⟨[], some Err.connReset⟩ ≠ Except.error Err.connReset := by
  refine ⟨rfl, rfl, ?_⟩
  intro hx
  have hx2 : (Except.error Err.badHandshake
      : Except Err (List Nat × List Nat))
      = Except.error Err.connReset := hx
  injection hx2 with h2
  exact absurd h2 (by decide)

/-- C6 amended: Dial maps every failure of the client side handshake,
including underlying transport errors, to ErrBadHandshake after closing
the transport; only a failure of the initial connection attempt, before
the handshake begins, is propagated unchanged. -/
theorem dial_maps_handshake_errors (clientPub clientPriv : List Nat)
    (c : ClientConn) (e : Err)
    (h : clientHandshake clientPub clientPriv c = Except.error e) :
    Dial clientPub clientPriv c = Except.error Err.badHandshake := by
  unfold Dial
  rw [h]

theorem dial_maps_handshake_errors_witness :
    (clientHandshake [] [] ⟨[], some Err.connReset⟩
      = Except.error Err.connReset) ∧
    Dial [] [] ⟨[], some Err.connReset⟩ = Except.error Err.badHandshake :=
  ⟨rfl, dial_maps_handshake_errors [] [] ⟨[], some Err.connReset⟩
    Err.connReset rfl⟩

/-- C7 counterexample: when the client sends a valid token but the
stream ends before its public key arrives, the server handshake fails
after the server public key was already written, so the wire carries the
public key followed by the rejection token: the rejection token is sent
in addition to the public key, not instead of it. -/
theorem serve_rejection_after_key_cex :
    (serverHandshake (List.replicate 32 5) (List.replicate 32 7)
        [protocolHandshake]).1 = Except.error Err.unexpectedEOF ∧
    serveHandshakeOutput (List.replicate 32 5) (List.replicate 32 7)
        [protocolHandshake]
      = List.replicate 32 5 ++ badHandshakeResponse := by
  exact ⟨rfl, rfl⟩

/-- C7 amended: whenever the server side handshake fails the fixed
rejection token is written back before the connection closes, and what
precedes it on the wire is either nothing (failure before the token
check passes) or exactly the server public key (failure while waiting
for the client key): the token replaces the public key only in the first
case. -/
theorem serve_rejection_always (pub priv : List Nat) (s : Chunks) (e : Err)
    (out : List Nat)
    (h : serverHandshake pub priv s = (Except.error e, out)) :
    serveHandshakeOutput pub priv s = out ++ badHandshakeResponse ∧
    (out = [] ∨ out = pub) := by
  constructor
  · unfold serveHandshakeOutput
    rw [h]
  · unfold serverHandshake at h
    split at h
    · injection h with h1 h2
      exact Or.inl h2.symm
    · split at h
      · split at h
        · injection h with h1 h2
          exact Or.inr h2.symm
        · injection h with h1 h2
          exact absurd h1 (by intro hx; exact Except.noConfusion hx)
      · injection h with h1 h2
        exact Or.inl h2.symm

theorem serve_rejection_always_witness :
    serverHandshake [3] [4] [] = (Except.error Err.unexpectedEOF, []) ∧
    serveHandshakeOutput [3] [4] [] = [] ++ badHandshakeResponse ∧
    (([] : List Nat) = [] ∨ ([] : List Nat) = [3]) := by
  have h := serve_rejection_always [3] [4] [] Err.unexpectedEOF [] rfl
  exact ⟨rfl, h.1, h.2⟩

/-- A region on which the first sticky track read fails decodes to no
tracks: the partially decoded track is discarded and the loop stops. -/
theorem readTracksLoop_stop (s : List Nat) (h : trackStepFails s) :
    readTracksLoop s = [] := by
  rw [readTracksLoop.eq_def]
  by_cases h5 : s.length < 5
  · rw [dif_pos h5]
  · rw [dif_neg h5]
    by_cases h2 : (s.drop 5).length < s.getD 4 0
    · rw [dif_pos h2]
    · rw [dif_neg h2]
      rw [dif_pos ?hd]
      case hd =>
        unfold trackStepFails at h
        simp only [List.length_drop] at h2 ⊢
        omega

/-- The track loop decodes every complete leading track and discards a
trailing region on which the first read fails. -/
theorem readTracksLoop_append (ts : List Track) (junk : List Nat)
    (hts : ∀ t ∈ ts,
      t.id < 256 ^ 4 ∧ t.name.length < 256 ∧ t.data.length = 16)
    (hj : trackStepFails junk) :
    readTracksLoop (encodeTracks ts ++ junk) = ts := by
  induction ts with
  | nil =>
    rw [show encodeTracks [] ++ junk = junk from by simp [encodeTracks]]
    exact readTracksLoop_stop junk hj
  | cons t ts ih =>
    obtain ⟨hid, hname, hdata⟩ := hts t (by simp)
    have hts2 : ∀ u ∈ ts,
        u.id < 256 ^ 4 ∧ u.name.length < 256 ∧ u.data.length = 16 :=
      fun u hu => hts u (by simp [hu])
    have hnb : (natToBytes 4 t.id).length = 4 := natToBytes_length _ _
    have h5len : (natToBytes 4 t.id ++ [t.name.length]).length = 5 := by
      simp [hnb]
    have hshape : encodeTracks (t :: ts) ++ junk
        = (natToBytes 4 t.id ++ [t.name.length])
          ++ (t.name ++ (t.data ++ (encodeTracks ts ++ junk))) := by
      simp [encodeTracks, encodeTrack, List.append_assoc]
    have hshape2 : encodeTracks (t :: ts) ++ junk
        = natToBytes 4 t.id
          ++ ([t.name.length]
            ++ (t.name ++ (t.data ++ (encodeTracks ts ++ junk)))) := by
      rw [hshape, List.append_assoc]
    have hgetD : (encodeTracks (t :: ts) ++ junk).getD 4 0
        = t.name.length := by
      rw [hshape2, getD_append_ge _ _ _ (by rw [hnb]), hnb]
      rfl
    have htake4 : (encodeTracks (t :: ts) ++ junk).take 4
        = natToBytes 4 t.id := by
      rw [hshape2, List.take_left' hnb]
    have hdrop5 : (encodeTracks (t :: ts) ++ junk).drop 5
        = t.name ++ (t.data ++ (encodeTracks ts ++ junk)) := by
      rw [hshape, List.drop_left' h5len]
    have hc1 : ¬ (encodeTracks (t :: ts) ++ junk).length < 5 := by
      rw [hshape, List.length_append, h5len]
      omega
    have hc2 : ¬ ((encodeTracks (t :: ts) ++ junk).drop 5).length
        < (encodeTracks (t :: ts) ++ junk).getD 4 0 := by
      rw [hdrop5, hgetD, List.length_append]
      omega
    have htakename : ((encodeTracks (t :: ts) ++ junk).drop 5).take
        ((encodeTracks (t :: ts) ++ junk).getD 4 0) = t.name := by
      rw [hdrop5, hgetD, List.take_left' rfl]
    have hdropname : ((encodeTracks (t :: ts) ++ junk).drop 5).drop
        ((encodeTracks (t :: ts) ++ junk).getD 4 0)
        = t.data ++ (encodeTracks ts ++ junk) := by
      rw [hdrop5, hgetD, List.drop_left' rfl]
    have hc3 : ¬ (((encodeTracks (t :: ts) ++ junk).drop 5).drop
        ((encodeTracks (t :: ts) ++ junk).getD 4 0)).length < 16 := by
      rw [hdropname, List.length_append, hdata]
      omega
    have htake16 : (((encodeTracks (t :: ts) ++ junk).drop 5).drop
        ((encodeTracks (t :: ts) ++ junk).getD 4 0)).take 16 = t.data := by
      rw [hdropname, List.take_left' hdata]
    have hdrop16 : (((encodeTracks (t :: ts) ++ junk).drop 5).drop
        ((encodeTracks (t :: ts) ++ junk).getD 4 0)).drop 16
        = encodeTracks ts ++ junk := by
      rw [hdropname, List.drop_left' hdata]
    rw [readTracksLoop.eq_def, dif_neg hc1, dif_neg hc2, dif_neg hc3,
      htake4, htakename, htake16, hdrop16, ih hts2,
      bytesToNat_natToBytes 4 t.id hid]

/-- C10: readTracks of the drum decoder variant at src/unnamed/part_001
returns a nil error for every input: a read failure part way through a
track (such as a truncated final track inside the length limited region)
stops the loop, the partial track is discarded, and exactly the tracks
fully decoded before the failure are returned, so DecodeFile never sees
an error originating from track parsing. -/
theorem claim_readTracks_no_error (ts : List Track) (junk : List Nat)
    (hts : ∀ t ∈ ts,
      t.id < 256 ^ 4 ∧ t.name.length < 256 ∧ t.data.length = 16)
    (hj : trackStepFails junk) :
    readTracks (encodeTracks ts ++ junk) = (ts, none) := by
  unfold readTracks
  rw [readTracksLoop_append ts junk hts hj]

theorem claim_readTracks_no_error_witness :
    (∀ t ∈ ([⟨7, [65, 66], List.replicate 16 1⟩] : List Track),
      t.id < 256 ^ 4 ∧ t.name.length < 256 ∧ t.data.length = 16) ∧
    trackStepFails [9, 9] ∧
    readTracks (encodeTracks [⟨7, [65, 66], List.replicate 16 1⟩] ++ [9, 9])
      = ([⟨7, [65, 66], List.replicate 16 1⟩], none) := by
  have hts : ∀ t ∈ ([⟨7, [65, 66], List.replicate 16 1⟩] : List Track),
      t.id < 256 ^ 4 ∧ t.name.length < 256 ∧ t.data.length = 16 := by
    decide
  exact ⟨hts, by decide, claim_readTracks_no_error _ _ hts (by decide)⟩
